import Mathlib

/-!
Verification of the vcrypt_backshot repository (Go) against its
natural-language specification.  Each Go function referenced by a claim is
shallowly embedded as a Lean definition; strings are embedded as `String` or
`List Char` (the repository only ever handles ASCII in the relevant paths, so
character counts coincide with Go's byte counts there), machine integers as
`Int`/`Nat`, and fallible operations as `Option`/`Except`.
-/

/-! ## Data model (src/unnamed/part_002, package models)

`StoredChunk` and `StoredFile` mirror the Go structs field for field.
`primitive.ObjectID` values are embedded as their 24-character hex rendering
(which is exactly how they appear in JSON), and `time.Time` values as their
already-rendered RFC3339 string, since no claim depends on their internals. -/

structure StoredChunk where
  ChunkID : Int
  DriveAccountID : String
  DriveID : String
  DriveFileID : String
  Filename : String
  Size : Int
  Checksum : String
  StartOffset : Int
  EndOffset : Int
deriving Repr, DecidableEq

structure StoredFile where
  ID : String
  FileID : String
  UserID : String
  OriginalFilename : String
  OriginalSize : Int
  ProcessedSize : Int
  Chunks : List StoredChunk
  ObfuscationSeed : String
  CreatedAt : String
  Status : String
deriving Repr, DecidableEq

/-- JSON string quoting as Go's `encoding/json` performs it for the strings at
hand: quote, backslash and the common control characters are escaped (the
HTML-safe escaping of `<`, `>`, `&` is irrelevant to every claim and omitted). -/
def jsonQuote (s : String) : String :=
  "\"" ++ String.mk (s.toList.flatMap (fun c =>
    if c = '"' then ['\\', '"']
    else if c = '\\' then ['\\', '\\']
    else if c = '\n' then ['\\', 'n']
    else if c = '\t' then ['\\', 't']
    else if c = '\r' then ['\\', 'r']
    else [c])) ++ "\""

/-- JSON encoding of `StoredChunk` per its struct tags: every field is
serialized, in declaration order. -/
def encodeStoredChunkJSON (c : StoredChunk) : String :=
  "\x7b\"chunk_id\":" ++ toString c.ChunkID ++
  ",\"drive_account_id\":" ++ jsonQuote c.DriveAccountID ++
  ",\"drive_id\":" ++ jsonQuote c.DriveID ++
  ",\"drive_file_id\":" ++ jsonQuote c.DriveFileID ++
  ",\"filename\":" ++ jsonQuote c.Filename ++
  ",\"size\":" ++ toString c.Size ++
  ",\"checksum\":" ++ jsonQuote c.Checksum ++
  ",\"start_offset\":" ++ toString c.StartOffset ++
  ",\"end_offset\":" ++ toString c.EndOffset ++ "\x7d"

/-- JSON encoding of `StoredFile` per its struct tags.  The `ObfuscationSeed`
field carries the tag `json:"-"`, so Go's `encoding/json` skips it entirely;
accordingly this encoder never reads it. -/
def encodeStoredFileJSON (f : StoredFile) : String :=
  "\x7b\"id\":" ++ jsonQuote f.ID ++
  ",\"file_id\":" ++ jsonQuote f.FileID ++
  ",\"user_id\":" ++ jsonQuote f.UserID ++
  ",\"original_filename\":" ++ jsonQuote f.OriginalFilename ++
  ",\"original_size\":" ++ toString f.OriginalSize ++
  ",\"processed_size\":" ++ toString f.ProcessedSize ++
  ",\"chunks\":[" ++ String.intercalate "," (f.Chunks.map encodeStoredChunkJSON) ++
  "],\"created_at\":" ++ jsonQuote f.CreatedAt ++
  ",\"status\":" ++ jsonQuote f.Status ++ "\x7d"

/-! ## Identifier generator (src/internal/fileprocessor/fileid.go)

`GenerateFileID` returns `primitive.NewObjectID().Hex()[:12]`.  A MongoDB
ObjectID is 12 bytes; the driver's `Hex()` is `encoding/hex` over them, which
indexes the constant table `"0123456789abcdef"` with the high and low nibble of
each byte.  The freshly generated ObjectID is embedded as an arbitrary list of
12 bytes. -/

def hexTable : List Char := "0123456789abcdef".toList

/-- `encoding/hex` encoding of one byte: table lookup by high and low nibble. -/
def byteHex (b : Nat) : List Char :=
  [hexTable.getD (b / 16) '0', hexTable.getD (b % 16) '0']

/-- `primitive.ObjectID.Hex()`: hex encoding of the 12 ObjectID bytes. -/
def objectIDHex (oid : List Nat) : List Char :=
  (oid.map byteHex).flatten

/-- `fileprocessor.GenerateFileID` applied to the freshly generated ObjectID:
the first 12 characters of its 24-character hex rendering. -/
def GenerateFileID (oid : List Nat) : List Char :=
  (objectIDHex oid).take 12

/-- A lowercase hexadecimal digit. -/
def isLowerHexDigit (c : Char) : Bool := c ∈ hexTable

/-! ### Theorems for C2 and C3 -/

/-- **C2.** The JSON encoding of `StoredFile` omits the `ObfuscationSeed`
field: any two `StoredFile` values that differ only in `ObfuscationSeed` have
identical JSON encodings, so listing responses never expose the per-file
obfuscation secret. -/
theorem storedFile_json_omits_obfuscationSeed (f : StoredFile) (seed : String) :
    encodeStoredFileJSON { f with ObfuscationSeed := seed } = encodeStoredFileJSON f := rfl

/-- Helper: a `getD` lookup into `hexTable` always lands in `hexTable`
(in-bounds it returns an element, out of bounds it returns the default '0'). -/
theorem getD_hexTable_mem (i : Nat) : hexTable.getD i '0' ∈ hexTable := by
  by_cases h : i < hexTable.length
  · rw [List.getD_eq_getElem hexTable '0' h]
    exact List.getElem_mem h
  · rw [List.getD_eq_default hexTable '0' (Nat.le_of_not_lt h)]
    decide

theorem byteHex_length (b : Nat) : (byteHex b).length = 2 := rfl

theorem byteHex_mem_hexTable (b : Nat) : ∀ c ∈ byteHex b, c ∈ hexTable := by
  intro c hc
  simp only [byteHex, List.mem_cons, List.mem_singleton, List.not_mem_nil, or_false] at hc
  rcases hc with h | h
  · exact h ▸ getD_hexTable_mem (b / 16)
  · exact h ▸ getD_hexTable_mem (b % 16)

theorem objectIDHex_length (oid : List Nat) : (objectIDHex oid).length = 2 * oid.length := by
  induction oid with
  | nil => rfl
  | cons b rest ih =>
    simp only [objectIDHex, List.map_cons, List.flatten_cons, List.length_append,
      List.length_cons, byteHex_length] at *
    omega

theorem objectIDHex_mem (oid : List Nat) : ∀ c ∈ objectIDHex oid, c ∈ hexTable := by
  intro c hc
  simp only [objectIDHex, List.mem_flatten, List.mem_map] at hc
  obtain ⟨l, ⟨b, _, rfl⟩, hcl⟩ := hc
  exact byteHex_mem_hexTable b c hcl

/-- **C3.** Every call to `GenerateFileID` returns a string of exactly 12
characters, each a lowercase hexadecimal digit, formed as a prefix of the
24-character hex encoding of the freshly generated ObjectID. -/
theorem generateFileID_spec (oid : List Nat) (hlen : oid.length = 12) :
    (GenerateFileID oid).length = 12 ∧
    (∀ c ∈ GenerateFileID oid, isLowerHexDigit c = true) ∧
    (objectIDHex oid).length = 24 ∧
    ∃ rest, GenerateFileID oid ++ rest = objectIDHex oid := by
  have h24 : (objectIDHex oid).length = 24 := by rw [objectIDHex_length, hlen]
  refine ⟨?_, ?_, h24, ?_⟩
  · simp [GenerateFileID, h24]
  · intro c hc
    have : c ∈ objectIDHex oid := List.mem_of_mem_take hc
    simpa [isLowerHexDigit] using objectIDHex_mem oid c this
  · exact ⟨(objectIDHex oid).drop 12, List.take_append_drop 12 _⟩

/-- Witness for C3 at a concrete ObjectID value. -/
theorem generateFileID_spec_witness :
    ([0, 1, 2, 3, 4, 5, 6, 7, 8, 9, 250, 255] : List Nat).length = 12 ∧
    ((GenerateFileID [0, 1, 2, 3, 4, 5, 6, 7, 8, 9, 250, 255]).length = 12 ∧
      (∀ c ∈ GenerateFileID [0, 1, 2, 3, 4, 5, 6, 7, 8, 9, 250, 255],
        isLowerHexDigit c = true) ∧
      (objectIDHex [0, 1, 2, 3, 4, 5, 6, 7, 8, 9, 250, 255]).length = 24 ∧
      ∃ rest, GenerateFileID [0, 1, 2, 3, 4, 5, 6, 7, 8, 9, 250, 255] ++ rest =
        objectIDHex [0, 1, 2, 3, 4, 5, 6, 7, 8, 9, 250, 255]) :=
  ⟨by decide, generateFileID_spec _ (by decide)⟩

/-! ## Authorization-header masking (src/unnamed/part_000, maskAuthorization)

The Go function:
```
if h == "" { return "" }
parts := strings.SplitN(h, " ", 2)
if len(parts) != 2 { return "<masked>" }
tok := parts[1]
if len(tok) <= 8 { return parts[0] + " ****" }
return parts[0] + " " + tok[:4] + "****" + tok[len(tok)-4:]
```
`strings.SplitN(h, " ", 2)` yields two parts exactly when `h` contains a
space: the text before the first space, and everything after it. -/

def notSpace (c : Char) : Bool := c ≠ ' '

/-- `strings.SplitN(h, " ", 2)` when it produces two parts: text before the
first space and everything after; `none` when `h` has no space. -/
def splitN2Space (h : List Char) : Option (List Char × List Char) :=
  match h.dropWhile notSpace with
  | [] => none
  | _ :: t => some (h.takeWhile notSpace, t)

def maskAuthorization (h : List Char) : List Char :=
  if h = [] then []
  else
    match splitN2Space h with
    | none => "<masked>".toList
    | some (scheme, tok) =>
      if tok.length ≤ 8 then scheme ++ " ****".toList
      else scheme ++ [' '] ++ tok.take 4 ++ "****".toList ++ tok.drop (tok.length - 4)

theorem splitN2Space_no_space {h : List Char} (hns : ' ' ∉ h) : splitN2Space h = none := by
  have hd : h.dropWhile notSpace = [] := by
    rw [List.dropWhile_eq_nil_iff]
    intro x hx
    simp only [notSpace, ne_eq, decide_eq_true_eq]
    exact fun hx' => hns (hx' ▸ hx)
  simp [splitN2Space, hd]

theorem splitN2Space_split (scheme tok : List Char) (hs : ' ' ∉ scheme) :
    splitN2Space (scheme ++ ' ' :: tok) = some (scheme, tok) := by
  have hall : ∀ c ∈ scheme, notSpace c = true := by
    intro c hc
    simp only [notSpace, ne_eq, decide_eq_true_eq]
    exact fun h => hs (h ▸ hc)
  have hdrop : (scheme ++ ' ' :: tok).dropWhile notSpace = ' ' :: tok := by
    rw [List.dropWhile_append_of_pos hall]
    simp [List.dropWhile, notSpace]
  have htake : (scheme ++ ' ' :: tok).takeWhile notSpace = scheme := by
    rw [List.takeWhile_append_of_pos hall]
    simp [List.takeWhile, notSpace]
  simp [splitN2Space, hdrop, htake]

/-- **C9.** `maskAuthorization` maps the empty header to the empty string, a
value with no space to `"<masked>"`, and a value `scheme ++ " " ++ token`
(splitting at the first space) to `scheme ++ " ****"` when the token has at
most 8 characters and otherwise to the scheme, a space, the token's first 4
characters, `"****"`, and its last 4 characters — revealing at most 8
characters of any token. -/
theorem maskAuthorization_spec :
    maskAuthorization [] = [] ∧
    (∀ h : List Char, h ≠ [] → ' ' ∉ h → maskAuthorization h = "<masked>".toList) ∧
    (∀ scheme tok : List Char, ' ' ∉ scheme → tok.length ≤ 8 →
      maskAuthorization (scheme ++ ' ' :: tok) = scheme ++ " ****".toList) ∧
    (∀ scheme tok : List Char, ' ' ∉ scheme → 8 < tok.length →
      maskAuthorization (scheme ++ ' ' :: tok) =
        scheme ++ [' '] ++ tok.take 4 ++ "****".toList ++ tok.drop (tok.length - 4)) := by
  refine ⟨rfl, ?_, ?_, ?_⟩
  · intro h hne hns
    rw [maskAuthorization, if_neg hne, splitN2Space_no_space hns]
  · intro scheme tok hs hlen
    have hne : scheme ++ ' ' :: tok ≠ [] := by simp
    rw [maskAuthorization, if_neg hne, splitN2Space_split scheme tok hs]
    simp [hlen]
  · intro scheme tok hs hlen
    have hne : scheme ++ ' ' :: tok ≠ [] := by simp
    rw [maskAuthorization, if_neg hne, splitN2Space_split scheme tok hs]
    simp [Nat.not_le.mpr hlen]

/-- Witness for C9 at concrete headers. -/
theorem maskAuthorization_spec_witness :
    maskAuthorization "basictoken".toList = "<masked>".toList ∧
    maskAuthorization "Bearer short".toList = "Bearer ****".toList ∧
    maskAuthorization "Bearer secret-token-value".toList =
      "Bearer secr****alue".toList := by
  refine ⟨?_, ?_, ?_⟩
  · exact maskAuthorization_spec.2.1 "basictoken".toList (by decide) (by decide)
  · have := maskAuthorization_spec.2.2.1 "Bearer".toList "short".toList (by decide) (by decide)
    simpa using this
  · have := maskAuthorization_spec.2.2.2 "Bearer".toList "secret-token-value".toList
      (by decide) (by decide)
    simpa using this

/-! ## limitedBuffer (src/unnamed/part_000)

```
func (l *limitedBuffer) Write(p []byte) (int, error) {
    remain := l.max - l.buf.Len()
    if remain <= 0 { return len(p), nil }
    if len(p) > remain { l.buf.Write(p[:remain]); return len(p), nil }
    return l.buf.Write(p)
}
func (l *limitedBuffer) Bytes() []byte { return l.buf.Bytes() }
```
`max` is a Go `int`, embedded as `Int`; bytes as `Nat`.  `bytes.Buffer.Write`
always returns `(len(p), nil)`, so every branch reports the full input length
with a nil error (embedded as `Option.none`). -/

structure limitedBuffer where
  buf : List Nat
  max : Int

def limitedBufferWrite (l : limitedBuffer) (p : List Nat) :
    (Nat × Option String) × limitedBuffer :=
  let remain : Int := l.max - l.buf.length
  if remain ≤ 0 then ((p.length, none), l)
  else if (p.length : Int) > remain then
    ((p.length, none), { l with buf := l.buf ++ p.take remain.toNat })
  else
    ((p.length, none), { l with buf := l.buf ++ p })

/-- Run a sequence of `Write` calls, collecting the returned values. -/
def limitedBufferWriteAll (l : limitedBuffer) :
    List (List Nat) → List (Nat × Option String) × limitedBuffer
  | [] => ([], l)
  | p :: ps =>
    let (r, l') := limitedBufferWrite l p
    let (rs, l'') := limitedBufferWriteAll l' ps
    (r :: rs, l'')

theorem limitedBufferWrite_buf (m : Nat) (pre p : List Nat)
    (l : limitedBuffer) (hmax : l.max = (m : Int)) (hbuf : l.buf = pre.take m) :
    (limitedBufferWrite l p).2.buf = (pre ++ p).take m ∧
    (limitedBufferWrite l p).2.max = (m : Int) ∧
    (limitedBufferWrite l p).1 = (p.length, none) := by
  have hlen : l.buf.length = min m pre.length := by rw [hbuf, List.length_take]
  rw [limitedBufferWrite]
  by_cases h1 : (l.max - l.buf.length : Int) ≤ 0
  · -- buffer already full: m ≤ pre.length
    have hm : m ≤ pre.length := by
      rw [hmax, hlen] at h1
      omega
    rw [if_pos h1]
    refine ⟨?_, hmax, rfl⟩
    rw [hbuf, List.take_append_of_le_length hm]
  · have hm : pre.length < m := by
      rw [hmax, hlen] at h1
      omega
    have hpre : pre.take m = pre := List.take_of_length_le (Nat.le_of_lt hm)
    have hremain : (l.max - l.buf.length : Int) = ((m - pre.length : Nat) : Int) := by
      rw [hmax, hlen]
      omega
    rw [if_neg h1]
    by_cases h2 : ((p.length : Int) > l.max - l.buf.length)
    · -- p overflows the remaining space: keep only the first `remain` bytes
      rw [if_pos h2]
      refine ⟨?_, hmax, rfl⟩
      show l.buf ++ p.take (l.max - (l.buf.length : Int)).toNat = (pre ++ p).take m
      rw [hremain, Int.toNat_natCast, hbuf, hpre, List.take_append_eq_append_take, hpre]
    · have hplen : p.length ≤ m - pre.length := by
        rw [hremain] at h2
        omega
      rw [if_neg h2]
      refine ⟨?_, hmax, rfl⟩
      show l.buf ++ p = (pre ++ p).take m
      rw [hbuf, hpre, List.take_append_eq_append_take, hpre, List.take_of_length_le hplen]

theorem limitedBufferWriteAll_spec (m : Nat) (pre : List Nat) (ws : List (List Nat))
    (l : limitedBuffer) (hmax : l.max = (m : Int)) (hbuf : l.buf = pre.take m) :
    (limitedBufferWriteAll l ws).1 = ws.map (fun p => (p.length, (none : Option String))) ∧
    (limitedBufferWriteAll l ws).2.buf = (pre ++ ws.flatten).take m := by
  induction ws generalizing l pre with
  | nil => simpa [limitedBufferWriteAll] using hbuf
  | cons p ps ih =>
    obtain ⟨hb, hm, hr⟩ := limitedBufferWrite_buf m pre p l hmax hbuf
    obtain ⟨ih1, ih2⟩ := ih (pre ++ p) (limitedBufferWrite l p).2 hm hb
    simp only [limitedBufferWriteAll, List.map_cons, List.flatten_cons]
    constructor
    · rw [← ih1, ← hr]
    · rw [ih2, List.append_assoc]

/-- **C8.** For every `limitedBuffer` with capacity `max ≥ 0` and every
sequence of `Write` calls starting from the empty buffer, each `Write` returns
the full input length with a nil error, and afterwards `Bytes()` is exactly the
first `min(max, total bytes written)` bytes of the concatenation of all inputs;
in particular the retained length never exceeds `max`. -/
theorem limitedBuffer_invariant (max : Int) (hmax : 0 ≤ max) (ws : List (List Nat)) :
    (limitedBufferWriteAll ⟨[], max⟩ ws).1 =
      ws.map (fun p => (p.length, (none : Option String))) ∧
    (limitedBufferWriteAll ⟨[], max⟩ ws).2.buf = ws.flatten.take max.toNat ∧
    ((limitedBufferWriteAll ⟨[], max⟩ ws).2.buf.length : Int) ≤ max := by
  obtain ⟨h1, h2⟩ := limitedBufferWriteAll_spec max.toNat [] ws ⟨[], max⟩
    (by simp [Int.toNat_of_nonneg hmax]) (by simp)
  simp only [List.nil_append] at h2
  refine ⟨h1, h2, ?_⟩
  rw [h2]
  have := List.length_take max.toNat ws.flatten
  omega

/-- Witness for C8 at a concrete capacity and write sequence. -/
theorem limitedBuffer_invariant_witness :
    (0 : Int) ≤ 3 ∧
    ((limitedBufferWriteAll ⟨[], 3⟩ [[1, 2], [3, 4, 5], [6]]).1 =
        [[1, 2], [3, 4, 5], [6]].map (fun p => (p.length, (none : Option String))) ∧
      (limitedBufferWriteAll ⟨[], 3⟩ [[1, 2], [3, 4, 5], [6]]).2.buf =
        [[1, 2], [3, 4, 5], [6]].flatten.take (3 : Int).toNat ∧
      (((limitedBufferWriteAll ⟨[], 3⟩ [[1, 2], [3, 4, 5], [6]]).2.buf.length : Int) ≤ 3)) :=
  ⟨by decide, limitedBuffer_invariant 3 (by decide) [[1, 2], [3, 4, 5], [6]]⟩

/-! ## Query-string masking (src/unnamed/part_000, maskQuery)

`maskQuery` renders `url.Values` (here: an association list in some iteration
order, with each value list in order) into a compact summary.  Keys matching
`(?i)^(password|pass|token|access_token|refresh_token|authorization|auth|secret)$`
have their first value replaced by `"****"`; other first values are truncated
to 120 characters and newline-collapsed; the whole summary is cut at 1024
characters.  Only the first value of a parameter is ever rendered. -/

def sensitiveQueryKeyList : List (List Char) :=
  ["password".toList, "pass".toList, "token".toList, "access_token".toList,
   "refresh_token".toList, "authorization".toList, "auth".toList, "secret".toList]

/-- The anchored, case-insensitive match of `sensitiveQueryKeys`. -/
def isSensitiveQueryKey (k : List Char) : Bool :=
  sensitiveQueryKeyList.contains (k.map Char.toLower)

/-- Per-value rendering of a non-sensitive first value: truncate to 120
characters (appending an ellipsis), then collapse newlines to spaces. -/
def renderQueryValue (v : List Char) : List Char :=
  let v := if v.length > 120 then v.take 120 ++ ['…'] else v
  v.map (fun c => if c = '\n' then ' ' else c)

def maskQueryAux : List (List Char × List (List Char)) → Bool → List Char → List Char
  | [], _, acc => acc
  | (k, vals) :: rest, first, acc =>
    let acc1 := if first then acc else acc ++ ['&']
    let acc2 := acc1 ++ k ++ ['=']
    match vals with
    | [] => maskQueryAux rest false acc2
    | v :: _ =>
      let acc3 := if isSensitiveQueryKey k then acc2 ++ "****".toList
                  else acc2 ++ renderQueryValue v
      if acc3.length > 1024 then acc3.take 1024 ++ ['…']
      else maskQueryAux rest false acc3

def maskQuery (q : List (List Char × List (List Char))) : List Char :=
  if q = [] then "<none>".toList else maskQueryAux q true []

/-- Replace every value of every sensitive-keyed parameter by an arbitrary
function of it (modelling "two runs that differ only in the secret values"). -/
def substSensitiveQueryValues (f : List Char → List Char)
    (q : List (List Char × List (List Char))) : List (List Char × List (List Char)) :=
  q.map (fun p => cond (isSensitiveQueryKey p.1) (p.1, p.2.map f) p)

theorem maskQueryAux_subst (f : List Char → List Char)
    (q : List (List Char × List (List Char))) :
    ∀ (first : Bool) (acc : List Char),
      maskQueryAux (substSensitiveQueryValues f q) first acc = maskQueryAux q first acc := by
  induction q with
  | nil => intro first acc; rfl
  | cons p rest ih =>
    intro first acc
    obtain ⟨k, vals⟩ := p
    simp only [substSensitiveQueryValues, List.map_cons] at ih ⊢
    cases hs : isSensitiveQueryKey k
    · cases vals with
      | nil => simp [maskQueryAux, hs, ih]
      | cons v vs => simp [maskQueryAux, hs, ih]
    · cases vals with
      | nil => simp [maskQueryAux, hs, ih]
      | cons v vs => simp [maskQueryAux, hs, ih]

/-- **C7.** `maskQuery` replaces the first value of every parameter whose key
case-insensitively equals one of password, pass, token, access_token,
refresh_token, authorization, auth, secret with `"****"` (second conjunct, for
a parameter rendered on its own), so the values of such parameters never
influence — and hence never appear in — the logged query summary: the summary
is unchanged under any substitution of all sensitive parameters' values (first
conjunct). -/
theorem maskQuery_spec :
    (∀ (q : List (List Char × List (List Char))) (f : List Char → List Char),
      maskQuery (substSensitiveQueryValues f q) = maskQuery q) ∧
    (∀ (k v : List Char) (vs : List (List Char)), isSensitiveQueryKey k = true →
      k.length + 5 ≤ 1024 → maskQuery [(k, v :: vs)] = k ++ "=****".toList) := by
  constructor
  · intro q f
    rcases hq : q with _ | ⟨p, rest⟩
    · rfl
    · rw [maskQuery, maskQuery, if_neg (by simp [substSensitiveQueryValues]), if_neg (by simp),
        maskQueryAux_subst]
  · intro k v vs hs hlen
    rw [maskQuery, if_neg (by simp)]
    simp only [maskQueryAux, hs, if_true, List.nil_append]
    rw [if_neg (by simp; omega)]
    simp [maskQueryAux]

/-- Witness for C7's hypotheses at a concrete sensitive parameter. -/
theorem maskQuery_spec_witness :
    isSensitiveQueryKey "Token".toList = true ∧
    ("Token".toList.length + 5 ≤ 1024) ∧
    maskQuery [("Token".toList, ["hunter2".toList])] = "Token".toList ++ "=****".toList :=
  ⟨by decide, by decide,
    maskQuery_spec.2 "Token".toList "hunter2".toList [] (by decide) (by decide)⟩

/-! ## Minimal int-to-string (src/internal/middleware/cors.go)

```
func strconvFormatInt(i int64) string {
    if i == 0 { return "0" }
    neg := false
    if i < 0 { neg = true; i = -i }
    var b [20]byte
    bp := len(b)
    for i > 0 { bp--; b[bp] = byte('0' + i%10); i /= 10 }
    if neg { bp--; b[bp] = '-' }
    return string(b[bp:])
}
```
`i` is an `int64`, embedded as `Int`; the two's-complement negation `i = -i`
wraps to itself at the minimum int64, which `goNegInt64` models.  The loop
fills a buffer from the end, producing the digits most-significant first;
`digitsLoopChars` builds exactly that digit sequence. -/

def digitChar (d : Nat) : Char :=
  match d with
  | 0 => '0' | 1 => '1' | 2 => '2' | 3 => '3' | 4 => '4'
  | 5 => '5' | 6 => '6' | 7 => '7' | 8 => '8' | _ => '9'

def int64MinValue : Int := -(2 ^ 63)

/-- Two's-complement `int64` negation: `-i`, except that the minimum value is
its own negation. -/
def goNegInt64 (i : Int) : Int := if i = int64MinValue then i else -i

/-- The buffer contents produced by the Go digit loop, most-significant digit
first (the loop writes `'0' + i%10` at descending positions while `i > 0`). -/
def digitsLoopChars (n : Nat) : List Char :=
  if n = 0 then [] else digitsLoopChars (n / 10) ++ [digitChar (n % 10)]
decreasing_by exact Nat.div_lt_self (Nat.pos_of_ne_zero (by assumption)) (by norm_num)

def strconvFormatInt (i : Int) : List Char :=
  if i = 0 then ['0']
  else
    let neg := i < 0
    let j := if i < 0 then goNegInt64 i else i
    let ds := if 0 < j then digitsLoopChars j.toNat else []
    if neg then '-' :: ds else ds

/-- `toSeconds(maxAge)` for the preflight max-age of 24 hours: the duration
divided by `time.Second` is the integer 86400. -/
def toSecondsMaxAge : List Char := strconvFormatInt ((24 * 60 * 60 : Int))

/-- The digit loop produces the standard decimal digit string: the digits of
`n` in base 10 (as given by `Nat.digits`), most significant first. -/
theorem digitsLoopChars_eq_digits (n : Nat) :
    digitsLoopChars n = ((Nat.digits 10 n).reverse.map digitChar) := by
  induction n using Nat.strong_induction_on with
  | _ n ih =>
    by_cases h : n = 0
    · subst h
      simp [digitsLoopChars]
    · rw [digitsLoopChars, if_neg h, Nat.digits_def' (by norm_num : 1 < 10) (Nat.pos_of_ne_zero h)]
      rw [List.reverse_cons, List.map_append, List.map_singleton,
        ih (n / 10) (Nat.div_lt_self (Nat.pos_of_ne_zero h) (by norm_num))]

/-- **C10.** For every int64 value `i` strictly greater than the minimum
int64, `strconvFormatInt i` is the standard base-10 decimal representation of
`i`: a leading '-' for negative `i`, followed by the base-10 digits of `|i|`
most significant first (and "0" for zero); in particular the CORS preflight
max-age of 24 hours renders as "86400". -/
theorem strconvFormatInt_spec (i : Int) (hlo : int64MinValue < i) (hhi : i < 2 ^ 63) :
    strconvFormatInt i =
      (if i = 0 then ['0']
       else (if i < 0 then ['-'] else []) ++ (Nat.digits 10 i.natAbs).reverse.map digitChar) ∧
    toSecondsMaxAge = "86400".toList := by
  constructor
  · by_cases h0 : i = 0
    · simp [strconvFormatInt, h0]
    · rw [strconvFormatInt, if_neg h0, if_neg h0]
      by_cases hneg : i < 0
      · have hne : i ≠ int64MinValue := by
          intro h
          rw [h] at hlo
          exact lt_irrefl _ hlo
        have hpos : 0 < -i := by omega
        simp only [hneg, if_true, goNegInt64, if_neg hne]
        rw [if_pos hpos, digitsLoopChars_eq_digits]
        have : (-i).toNat = i.natAbs := by omega
        rw [this]
        rfl
      · have hpos : 0 < i := by omega
        simp only [hneg, if_false]
        rw [if_pos hpos, digitsLoopChars_eq_digits]
        have : i.toNat = i.natAbs := by omega
        rw [this]
        rfl
  · rw [toSecondsMaxAge]
    norm_num
    simp [strconvFormatInt, digitsLoopChars, digitChar]

/-- Witness for C10 at a concrete in-range negative int64. -/
theorem strconvFormatInt_spec_witness :
    (int64MinValue < (-86400 : Int) ∧ (-86400 : Int) < 2 ^ 63) ∧
    (strconvFormatInt (-86400) =
      (if (-86400 : Int) = 0 then ['0']
       else (if (-86400 : Int) < 0 then ['-'] else []) ++
         (Nat.digits 10 (-86400 : Int).natAbs).reverse.map digitChar) ∧
     toSecondsMaxAge = "86400".toList) :=
  ⟨⟨by decide, by decide⟩, strconvFormatInt_spec (-86400) (by decide) (by decide)⟩

/-! ## JSON-body masking (src/unnamed/part_000, maskSensitive / safeBodyPreview)

```
var sensitiveFields = regexp.MustCompile(
  `(?i)\"(password|token|access_token|refresh_token|authorization)\"\s*:\s*\"[^\"]*\"`)
func maskSensitive(s string) string {
    return sensitiveFields.ReplaceAllStringFunc(s, func(m string) string {
        i := strings.Index(m, ":")
        if i == -1 { return m }
        key := m[:i]
        return key + ": \"****\""
    })
}
```
`ReplaceAllStringFunc` rewrites each non-overlapping leftmost match and
resumes scanning right after it.  The five alternatives of the key group are
pairwise incompatible at any position (they differ within their first two
characters), so at a given position at most one can start a match, and the
scan embeds as: at each position try to match the whole pattern (case-folding
the input against the lowercase key, `\s` = space, tab, newline, form feed,
carriage return, `[^\"]*` = longest quote-free run); on a match emit the
replacement (the match up to its first ':' — i.e. the quoted key and trailing
whitespace — followed by `: "****"`) and continue after the match, otherwise
emit the character and move one position right.  The fuel argument of the
scanner is bounded below by the number of positions still to visit, which the
input's length always satisfies. -/

def sensitiveFieldKeys : List (List Char) :=
  ["password".toList, "token".toList, "access_token".toList,
   "refresh_token".toList, "authorization".toList]

/-- `\s` of Go's regexp: ASCII whitespace. -/
def isReSpace (c : Char) : Bool :=
  c = ' ' || c = '\t' || c = '\n' || c = '\x0c' || c = '\r'

/-- Case-insensitive match of a lowercase pattern against the start of the
input; returns the matched original text and the remainder. -/
def matchCI : List Char → List Char → Option (List Char × List Char)
  | [], s => some ([], s)
  | _ :: _, [] => none
  | p :: ps, c :: cs =>
    if c.toLower = p then (matchCI ps cs).map (fun r => (c :: r.1, r.2)) else none

/-- Try the key alternatives in the pattern's order; at most one can match. -/
def matchKeyCI : List (List Char) → List Char → Option (List Char × List Char)
  | [], _ => none
  | k :: ks, s =>
    match matchCI k s with
    | some r => some r
    | none => matchKeyCI ks s

/-- `[^\"]*\"`: the longest quote-free run, then a closing quote. -/
def matchValue (s : List Char) : Option (List Char × List Char) :=
  match s.dropWhile (fun c => c ≠ '"') with
  | [] => none
  | _ :: t => some (s.takeWhile (fun c => c ≠ '"'), t)

/-- Try to match the whole sensitive-field pattern at the current position;
on success return the replacement text (match up to its first ':', then
`: "****"`) and the input remaining after the match. -/
def tryMatchAt : List Char → Option (List Char × List Char)
  | [] => none
  | c :: s =>
    if c = '"' then
      match matchKeyCI sensitiveFieldKeys s with
      | none => none
      | some (keyText, s1) =>
        match s1 with
        | '"' :: s2 =>
          let sp1 := s2.takeWhile isReSpace
          match s2.dropWhile isReSpace with
          | ':' :: s4 =>
            match s4.dropWhile isReSpace with
            | '"' :: s6 =>
              match matchValue s6 with
              | some (_, rest) =>
                some ('"' :: keyText ++ '"' :: sp1 ++ ": \"****\"".toList, rest)
              | none => none
            | _ => none
          | _ => none
        | _ => none
    else none

/-- The replacement scan: `fuel` bounds the number of positions visited; any
`fuel ≥ s.length` yields the scan's true result since every step consumes at
least one character. -/
def maskSensitiveGo : Nat → List Char → List Char
  | 0, s => s
  | _ + 1, [] => []
  | fuel + 1, c :: cs =>
    match tryMatchAt (c :: cs) with
    | some (repl, rest) => repl ++ maskSensitiveGo fuel rest
    | none => c :: maskSensitiveGo fuel cs

def maskSensitive (s : List Char) : List Char :=
  maskSensitiveGo s.length s

/-- `strings.Contains(s, pat)`: some suffix of `s` starts with `pat`. -/
def containsSubstring (s pat : List Char) : Bool :=
  match s with
  | [] => pat.isEmpty
  | _ :: t => pat.isPrefixOf s || containsSubstring t pat

/-- `safeBodyPreview`: empty bodies render as `<empty>`; JSON bodies are run
through `maskSensitive`; newlines are collapsed to spaces. -/
def safeBodyPreview (b : List Char) (ct : List Char) : List Char :=
  if b = [] then "<empty>".toList
  else
    let s := if containsSubstring (ct.map Char.toLower) "application/json".toList
             then maskSensitive b else b
    s.map (fun c => if c = '\n' then ' ' else c)

theorem matchValue_clean (v r : List Char) (hv : '"' ∉ v) :
    matchValue (v ++ '"' :: r) = some (v, r) := by
  have hall : ∀ c ∈ v, (fun c : Char => decide (c ≠ '"')) c = true := by
    intro c hc
    simp only [ne_eq, decide_eq_true_eq]
    exact fun h => hv (h ▸ hc)
  rw [matchValue]
  rw [List.dropWhile_append_of_pos hall, List.takeWhile_append_of_pos hall]
  simp [List.dropWhile, List.takeWhile]

theorem maskSensitiveGo_nil (fuel : Nat) : maskSensitiveGo fuel [] = [] := by
  cases fuel <;> rfl

/-- Evaluation of the replacement scan on a single-field JSON object whose
field name is one of the masked keys: the value is replaced by `"****"`. -/
theorem maskSensitive_json_hit (key v : List Char) (hv : '"' ∉ v)
    (hkey : matchKeyCI sensitiveFieldKeys (key ++ '"' :: ':' :: '"' :: (v ++ '"' :: ['}'])) =
      some (key, '"' :: ':' :: '"' :: (v ++ '"' :: ['}']))) :
    maskSensitive ('{' :: '"' :: (key ++ '"' :: ':' :: '"' :: (v ++ '"' :: ['}']))) =
      '{' :: '"' :: key ++ '"' :: ": \"****\"".toList ++ ['}'] := by
  have hhit : tryMatchAt ('"' :: (key ++ '"' :: ':' :: '"' :: (v ++ '"' :: ['}']))) =
      some ('"' :: key ++ '"' :: ": \"****\"".toList, ['}']) := by
    simp [tryMatchAt, hkey, isReSpace, matchValue_clean _ _ hv]
  have hlen : ('{' :: '"' :: (key ++ '"' :: ':' :: '"' :: (v ++ '"' :: ['}']))).length =
      (key.length + v.length + 6) + 1 := by
    simp
    omega
  rw [maskSensitive, hlen]
  have step1 : tryMatchAt ('{' :: '"' :: (key ++ '"' :: ':' :: '"' :: (v ++ '"' :: ['}']))) =
      none := by simp [tryMatchAt]
  have step3 : tryMatchAt ['}'] = none := by simp [tryMatchAt]
  simp only [maskSensitiveGo, step1, hhit, step3, maskSensitiveGo_nil]
  simp

/-- **C1 (counterexample).** The claim fails on the code: `maskSensitive` masks
only the fields password, token, access_token, refresh_token, authorization,
so a JSON body carrying the obfuscation secret under the repository's name for
it (`obfuscation_seed`, the field of `StoredFile`) is logged verbatim — two
bodies differing only in the secret's value produce different log previews,
and the preview contains the secret. -/
theorem safeBodyPreview_leaks_obfuscation_seed :
    safeBodyPreview "\x7b\"obfuscation_seed\":\"sek1\"\x7d".toList "application/json".toList ≠
      safeBodyPreview "\x7b\"obfuscation_seed\":\"sek2\"\x7d".toList "application/json".toList ∧
    safeBodyPreview "\x7b\"obfuscation_seed\":\"sek1\"\x7d".toList "application/json".toList =
      "\x7b\"obfuscation_seed\":\"sek1\"\x7d".toList := by decide

/-- **C1 (amended).** The logged body preview masks the values of the JSON
fields the middleware actually recognises — password, token, access_token,
refresh_token, authorization: for any such field and any quote-free value, the
preview renders the field with `"****"` in place of the value (so the log
output is independent of those values).  The obfuscation-secret field
`obfuscation_seed` is not among the masked keys and is logged verbatim. -/
theorem safeBodyPreview_masks_sensitive_fields :
    ∀ key ∈ sensitiveFieldKeys, ∀ v : List Char, '"' ∉ v →
      safeBodyPreview ('{' :: '"' :: (key ++ '"' :: ':' :: '"' :: (v ++ '"' :: ['}'])))
          "application/json".toList =
        '{' :: '"' :: key ++ '"' :: ": \"****\"".toList ++ ['}'] := by
  intro key hk v hv
  fin_cases hk <;>
  · rw [safeBodyPreview, if_neg (by simp), if_pos (by decide),
      maskSensitive_json_hit _ v hv (by simp [matchKeyCI, matchCI, sensitiveFieldKeys])]
    decide

/-- Witness for the amended C1 at the key "token" and a concrete secret. -/
theorem safeBodyPreview_masks_sensitive_fields_witness :
    ("token".toList ∈ sensitiveFieldKeys ∧ '"' ∉ "sek".toList) ∧
    safeBodyPreview
        ('{' :: '"' :: ("token".toList ++ '"' :: ':' :: '"' :: ("sek".toList ++ '"' :: ['}'])))
        "application/json".toList =
      '{' :: '"' :: "token".toList ++ '"' :: ": \"****\"".toList ++ ['}'] :=
  ⟨⟨by decide, by decide⟩,
    safeBodyPreview_masks_sensitive_fields "token".toList (by decide) "sek".toList (by decide)⟩

/-! ## Chunk Allocation Planner

Modelled from the spec: the planner implementation (package
`fileprocessor` / `filehandlers`, reached via `CalculateChunkingHandler` and
`InitiateUploadHandler`) is not among the available source files; only its
HTTP callers appear in `src/unnamed/part_000`.  Following spec §4.1: the
target chunk size is the strategy's desired size clamped to a configured
minimum and maximum; the chunk count is `ceil(size / target)`; chunks are
assigned one at a time to the eligible account with the most free capacity
(the "balanced" weighting, re-derived after every assignment), skipping
accounts that cannot absorb the next chunk; planning fails with
`NoLinkedAccounts` when no account is linked and with `InsufficientCapacity`
when total free capacity is below the file size. -/

inductive PlanError where
  | InsufficientCapacity
  | NoLinkedAccounts
deriving Repr, DecidableEq

structure PlanChunk where
  chunkIndex : Nat
  size : Nat
  startOffset : Nat
  endOffset : Nat
  targetAccount : Nat
deriving Repr, DecidableEq

structure PlannerConfig where
  minChunkSize : Nat
  maxChunkSize : Nat
deriving Repr, DecidableEq

/-- Modelled from the spec: "choose a target chunk size bounded by a
configured minimum and maximum". -/
def targetChunkSize (cfg : PlannerConfig) (desired : Nat) : Nat :=
  min cfg.maxChunkSize (max cfg.minChunkSize desired)

/-- The ordered chunk sizes: full chunks of `csize` with a final remainder,
i.e. `ceil(size / csize)` chunks. -/
def chunkSizes (csize : Nat) (size : Nat) : List Nat :=
  if csize = 0 then []
  else if size = 0 then []
  else if size ≤ csize then [size]
  else csize :: chunkSizes csize (size - csize)
termination_by size
decreasing_by exact Nat.sub_lt (by omega) (by omega)

/-- Index of the account with the largest free capacity (ties to the
earliest), together with that capacity. -/
def bestAccount : List Nat → Option (Nat × Nat)
  | [] => none
  | c :: cs =>
    match bestAccount cs with
    | none => some (0, c)
    | some (i, v) => if v > c then (i + 1, v) else (0, c)

/-- The balanced strategy's pick for the next chunk: the account with the
most free space, provided it can absorb the chunk. -/
def pickAccount (caps : List Nat) (need : Nat) : Option Nat :=
  match bestAccount caps with
  | none => none
  | some (i, v) => if need ≤ v then some i else none

/-- Assign each chunk in order, deducting each chunk from its target
account's remaining free capacity before placing the next. -/
def assignChunks : List Nat → List Nat → Except PlanError (List (Nat × Nat))
  | [], _ => .ok []
  | c :: cs, caps =>
    match pickAccount caps c with
    | none => .error .InsufficientCapacity
    | some i =>
      (assignChunks cs (caps.set i (caps.getD i 0 - c))).map (fun rest => (c, i) :: rest)

/-- Attach indices and contiguous offsets to the assigned chunks. -/
def attachOffsets : Nat → Nat → List (Nat × Nat) → List PlanChunk
  | _, _, [] => []
  | idx, off, (c, a) :: rest =>
    ⟨idx, c, off, off + c, a⟩ :: attachOffsets (idx + 1) (off + c) rest

/-- Modelled from the spec: the Chunk Allocation Planner of §4.1, whose
implementation is not among the available source files.  Validate the account
set and total capacity, then cut and assign.  Pure in all of its inputs, as
the spec requires. -/
def planChunks (cfg : PlannerConfig) (desired : Nat) (size : Nat) (caps : List Nat) :
    Except PlanError (List PlanChunk) :=
  if caps = [] then .error .NoLinkedAccounts
  else if caps.sum < size then .error .InsufficientCapacity
  else (assignChunks (chunkSizes (targetChunkSize cfg desired) size) caps).map
    (attachOffsets 0 0)

/-- Executable check: offsets start at `off`, are contiguous and
non-overlapping, with each end offset equal to start plus size. -/
def offsetsContiguous : Nat → List PlanChunk → Bool
  | _, [] => true
  | off, ch :: rest =>
    decide (ch.startOffset = off) && decide (ch.endOffset = ch.startOffset + ch.size) &&
      offsetsContiguous ch.endOffset rest

/-- Executable check: replaying the plan against the capacities at planning
time, every chunk goes to an existing account whose remaining free capacity
at its turn is at least the chunk's size. -/
def assignmentRespectsCapacity : List Nat → List PlanChunk → Bool
  | _, [] => true
  | caps, ch :: rest =>
    decide (ch.targetAccount < caps.length) &&
      decide (ch.size ≤ caps.getD ch.targetAccount 0) &&
      assignmentRespectsCapacity
        (caps.set ch.targetAccount (caps.getD ch.targetAccount 0 - ch.size)) rest

theorem chunkSizes_sum (csize : Nat) (hc : 0 < csize) :
    ∀ size, (chunkSizes csize size).sum = size := by
  intro size
  induction size using Nat.strong_induction_on with
  | _ size ih =>
    rw [chunkSizes, if_neg (by omega : ¬ csize = 0)]
    by_cases h0 : size = 0
    · simp [h0]
    · rw [if_neg h0]
      by_cases hle : size ≤ csize
      · simp [hle]
      · rw [if_neg hle]
        simp only [List.sum_cons, ih (size - csize) (by omega)]
        omega

theorem bestAccount_spec (caps : List Nat) :
    ∀ i v, bestAccount caps = some (i, v) → i < caps.length ∧ caps.getD i 0 = v := by
  induction caps with
  | nil => intro i v h; simp [bestAccount] at h
  | cons c cs ih =>
    intro i v h
    rw [bestAccount] at h
    rcases hb : bestAccount cs with _ | ⟨j, w⟩
    · rw [hb] at h
      injection h with h
      injection h with h1 h2
      subst h1
      subst h2
      simp
    · rw [hb] at h
      dsimp only at h
      by_cases hgt : w > c
      · rw [if_pos hgt] at h
        injection h with h
        injection h with h1 h2
        subst h1
        subst h2
        obtain ⟨hj, hv⟩ := ih j w hb
        constructor
        · simpa using Nat.succ_lt_succ hj
        · simpa using hv
      · rw [if_neg hgt] at h
        injection h with h
        injection h with h1 h2
        subst h1
        subst h2
        simp

theorem pickAccount_spec (caps : List Nat) (need i : Nat)
    (h : pickAccount caps need = some i) :
    i < caps.length ∧ need ≤ caps.getD i 0 := by
  rw [pickAccount] at h
  rcases hb : bestAccount caps with _ | ⟨j, w⟩
  · rw [hb] at h; exact absurd h (by simp)
  · rw [hb] at h
    dsimp only at h
    by_cases hle : need ≤ w
    · rw [if_pos hle] at h
      injection h with h
      obtain ⟨hj, hv⟩ := bestAccount_spec caps j w hb
      subst h
      exact ⟨hj, hv ▸ hle⟩
    · rw [if_neg hle] at h
      exact absurd h (by simp)

theorem attachOffsets_map_size (l : List (Nat × Nat)) :
    ∀ idx off, (attachOffsets idx off l).map PlanChunk.size = l.map Prod.fst := by
  induction l with
  | nil => intro idx off; rfl
  | cons p rest ih =>
    intro idx off
    obtain ⟨c, a⟩ := p
    simp [attachOffsets, ih]

theorem attachOffsets_contiguous (l : List (Nat × Nat)) :
    ∀ idx off, offsetsContiguous off (attachOffsets idx off l) = true := by
  induction l with
  | nil => intro idx off; rfl
  | cons p rest ih =>
    intro idx off
    obtain ⟨c, a⟩ := p
    simp [attachOffsets, offsetsContiguous, ih]

theorem assignChunks_sizes (cs : List Nat) :
    ∀ caps l, assignChunks cs caps = .ok l → l.map Prod.fst = cs := by
  induction cs with
  | nil =>
    intro caps l h
    simp only [assignChunks] at h
    injection h with h
    subst h
    rfl
  | cons c rest ih =>
    intro caps l h
    rw [assignChunks] at h
    rcases hp : pickAccount caps c with _ | i
    · rw [hp] at h; exact absurd h (by simp)
    · rw [hp] at h
      dsimp only at h
      rcases ha : assignChunks rest (caps.set i (caps.getD i 0 - c)) with e | l'
      · rw [ha] at h; exact absurd h (by simp [Except.map])
      · rw [ha] at h
        simp only [Except.map] at h
        injection h with h
        subst h
        simp [ih _ _ ha]

theorem assignChunks_capacity (cs : List Nat) :
    ∀ caps l idx off, assignChunks cs caps = .ok l →
      assignmentRespectsCapacity caps (attachOffsets idx off l) = true := by
  induction cs with
  | nil =>
    intro caps l idx off h
    simp only [assignChunks] at h
    injection h with h
    subst h
    rfl
  | cons c rest ih =>
    intro caps l idx off h
    rw [assignChunks] at h
    rcases hp : pickAccount caps c with _ | i
    · rw [hp] at h; exact absurd h (by simp)
    · rw [hp] at h
      dsimp only at h
      rcases ha : assignChunks rest (caps.set i (caps.getD i 0 - c)) with e | l'
      · rw [ha] at h; exact absurd h (by simp [Except.map])
      · rw [ha] at h
        simp only [Except.map] at h
        injection h with h
        subst h
        obtain ⟨hlt, hle⟩ := pickAccount_spec caps c i hp
        simp only [attachOffsets, assignmentRespectsCapacity, Bool.and_eq_true,
          decide_eq_true_eq]
        exact ⟨⟨hlt, hle⟩, ih _ _ (idx + 1) (off + c) ha⟩

/-- **C4** (modelled from the spec, §4.1).  Whenever the planner returns a
plan, the plan's chunk sizes sum to the declared file size, its offsets are
contiguous and non-overlapping starting at 0 (so they partition `[0, size)`
exactly), and replaying the assignments against the capacities reported at
planning time shows every chunk went to exactly one existing account whose
remaining free capacity at that point was at least the chunk's size. -/
theorem planChunks_spec (cfg : PlannerConfig) (desired size : Nat) (caps : List Nat)
    (plan : List PlanChunk)
    (hmin : 0 < cfg.minChunkSize)
    (hminmax : cfg.minChunkSize ≤ cfg.maxChunkSize)
    (hok : planChunks cfg desired size caps = .ok plan) :
    (plan.map PlanChunk.size).sum = size ∧
    offsetsContiguous 0 plan = true ∧
    assignmentRespectsCapacity caps plan = true := by
  have hcsize : 0 < targetChunkSize cfg desired := by
    have h1 : planChunks cfg desired size caps ≠ .error .NoLinkedAccounts := by
      rw [hok]; simp
    rw [planChunks] at h1 hok
    by_cases hcaps : caps = []
    · rw [if_pos hcaps] at h1; exact absurd rfl h1
    · rw [targetChunkSize]
      omega
  rw [planChunks] at hok
  by_cases hcaps : caps = []
  · rw [if_pos hcaps] at hok; exact absurd hok (by simp)
  · rw [if_neg hcaps] at hok
    by_cases hcap : caps.sum < size
    · rw [if_pos hcap] at hok; exact absurd hok (by simp)
    · rw [if_neg hcap] at hok
      rcases ha : assignChunks (chunkSizes (targetChunkSize cfg desired) size) caps with e | l
      · rw [ha] at hok; exact absurd hok (by simp [Except.map])
      · rw [ha] at hok
        simp only [Except.map] at hok
        injection hok with hok
        subst hok
        refine ⟨?_, attachOffsets_contiguous l 0 0, assignChunks_capacity _ caps l 0 0 ha⟩
        rw [attachOffsets_map_size, assignChunks_sizes _ caps l ha,
          chunkSizes_sum _ hcsize size]

/-- Witness for C4: a 10-byte file, chunk size clamp [2,4] with desired 3,
over two accounts with 8 free each. -/
theorem planChunks_spec_witness :
    (0 < (PlannerConfig.mk 2 4).minChunkSize ∧
      (PlannerConfig.mk 2 4).minChunkSize ≤ (PlannerConfig.mk 2 4).maxChunkSize ∧
      planChunks ⟨2, 4⟩ 3 10 [8, 8] =
        .ok [⟨0, 3, 0, 3, 0⟩, ⟨1, 3, 3, 6, 1⟩, ⟨2, 3, 6, 9, 0⟩, ⟨3, 1, 9, 10, 1⟩]) ∧
    (([⟨0, 3, 0, 3, 0⟩, ⟨1, 3, 3, 6, 1⟩, ⟨2, 3, 6, 9, 0⟩,
        (⟨3, 1, 9, 10, 1⟩ : PlanChunk)].map PlanChunk.size).sum = 10 ∧
      offsetsContiguous 0 [⟨0, 3, 0, 3, 0⟩, ⟨1, 3, 3, 6, 1⟩, ⟨2, 3, 6, 9, 0⟩,
        ⟨3, 1, 9, 10, 1⟩] = true ∧
      assignmentRespectsCapacity [8, 8] [⟨0, 3, 0, 3, 0⟩, ⟨1, 3, 3, 6, 1⟩,
        ⟨2, 3, 6, 9, 0⟩, ⟨3, 1, 9, 10, 1⟩] = true) :=
  ⟨⟨by decide, by decide,
      by simp [planChunks, chunkSizes, targetChunkSize, assignChunks, pickAccount,
        bestAccount, attachOffsets, Except.map]⟩,
    planChunks_spec ⟨2, 4⟩ 3 10 [8, 8] _ (by decide) (by decide)
      (by simp [planChunks, chunkSizes, targetChunkSize, assignChunks, pickAccount,
        bestAccount, attachOffsets, Except.map])⟩

/-! ## Key File Codec

Modelled from the spec: the codec implementation (the `.2xpfm.key` artifact
written by the key-file download endpoint and parsed by download initiation)
is not among the available source files; only its callers appear in the test
script.  Following spec §4.4: the artifact is a compact, versioned, line-based
representation carrying a self-describing magic tag and version, the file id,
the original filename, the original size and the obfuscation secret; decoding
rejects unknown versions with `UnsupportedKeyFileVersion` and malformed
content with `CorruptKeyFile`. -/

inductive KeyFileError where
  | UnsupportedKeyFileVersion
  | CorruptKeyFile
deriving Repr, DecidableEq

structure KeyFileContent where
  fileID : String
  filename : String
  originalSize : Int
  obfuscationSeed : String
deriving Repr, DecidableEq

def supportedKeyFileVersions : List Nat := [1]

def keyFileMagic : List Char := "2XPFM-KEY".toList

def charDigit? (c : Char) : Option Nat :=
  if '0' ≤ c ∧ c ≤ '9' then some (c.toNat - '0'.toNat) else none

/-- Base-10 digits of `n`, most significant first. -/
def natToDigits (n : Nat) : List Nat :=
  if n < 10 then [n] else natToDigits (n / 10) ++ [n % 10]
termination_by n
decreasing_by exact Nat.div_lt_self (by omega) (by norm_num)

def natToChars (n : Nat) : List Char := (natToDigits n).map digitChar

def intToChars (i : Int) : List Char :=
  if i < 0 then '-' :: natToChars i.natAbs else natToChars i.toNat

def charsToNatGo : List Char → Nat → Option Nat
  | [], acc => some acc
  | c :: cs, acc =>
    match charDigit? c with
    | none => none
    | some d => charsToNatGo cs (acc * 10 + d)

def charsToNat? (l : List Char) : Option Nat :=
  match l with
  | [] => none
  | _ => charsToNatGo l 0

def charsToInt? (l : List Char) : Option Int :=
  match l with
  | [] => none
  | c :: rest =>
    if c = '-' then
      match charsToNat? rest with
      | none => none
      | some n => some (-(n : Int))
    else
      match charsToNat? (c :: rest) with
      | none => none
      | some n => some ((n : Int))

/-- Modelled from the spec: the Key File Codec's encoder of §4.4, whose
implementation is not among the available source files.  Encode a `StoredFile`
into the key-file artifact at a given format version: magic, version, file id,
original filename, original size, obfuscation secret, one line each. -/
def encodeKeyFile (version : Nat) (sf : StoredFile) : List (List Char) :=
  [keyFileMagic, natToChars version, sf.FileID.toList, sf.OriginalFilename.toList,
   intToChars sf.OriginalSize, sf.ObfuscationSeed.toList]

/-- Modelled from the spec: the Key File Codec's decoder of §4.4.  Decode a
key-file artifact, rejecting a bad shape or magic or an unparsable number as
`CorruptKeyFile` and an unknown version as `UnsupportedKeyFileVersion`. -/
def decodeKeyFile (lines : List (List Char)) : Except KeyFileError (Nat × KeyFileContent) :=
  match lines with
  | [magic, vline, idLine, nameLine, sizeLine, seedLine] =>
    if magic ≠ keyFileMagic then .error .CorruptKeyFile
    else
      match charsToNat? vline with
      | none => .error .CorruptKeyFile
      | some v =>
        if v ∉ supportedKeyFileVersions then .error .UnsupportedKeyFileVersion
        else
          match charsToInt? sizeLine with
          | none => .error .CorruptKeyFile
          | some n =>
            .ok (v, ⟨String.mk idLine, String.mk nameLine, n, String.mk seedLine⟩)
  | _ => .error .CorruptKeyFile

theorem stringMk_toList (s : String) : String.mk s.toList = s := by
  cases s
  rfl

theorem digitChar_ne_dash (d : Nat) : digitChar d ≠ '-' := by
  unfold digitChar
  split <;> decide

theorem charDigit?_digitChar (d : Nat) (hd : d < 10) : charDigit? (digitChar d) = some d := by
  interval_cases d <;> decide

theorem natToDigits_ne_nil (n : Nat) : natToDigits n ≠ [] := by
  rw [natToDigits]
  split
  · simp
  · simp

theorem charsToNatGo_append (xs ys : List Char) :
    ∀ acc a, charsToNatGo xs acc = some a →
      charsToNatGo (xs ++ ys) acc = charsToNatGo ys a := by
  induction xs with
  | nil =>
    intro acc a h
    simp only [charsToNatGo] at h
    injection h with h
    subst h
    rfl
  | cons c cs ih =>
    intro acc a h
    rw [charsToNatGo] at h
    rcases hc : charDigit? c with _ | d
    · rw [hc] at h; exact absurd h (by simp)
    · rw [hc] at h
      dsimp only at h
      simp only [List.cons_append, charsToNatGo, hc]
      exact ih _ _ h

theorem charsToNatGo_natToChars (n : Nat) :
    ∀ acc, charsToNatGo (natToChars n) acc =
      some (acc * 10 ^ (natToDigits n).length + n) := by
  induction n using Nat.strong_induction_on with
  | _ n ih =>
    intro acc
    by_cases h : n < 10
    · rw [natToChars, natToDigits, if_pos h]
      simp only [List.map_singleton, charsToNatGo, charDigit?_digitChar n h]
      simp
    · have hsplit : natToChars n = natToChars (n / 10) ++ [digitChar (n % 10)] := by
        rw [natToChars, natToChars, natToDigits, if_neg h, List.map_append, List.map_singleton]
      have hlen : (natToDigits n).length = (natToDigits (n / 10)).length + 1 := by
        rw [natToDigits, if_neg h]
        simp
      rw [hsplit, charsToNatGo_append _ _ acc _ (ih (n / 10) (by omega) acc)]
      simp only [charsToNatGo, charDigit?_digitChar (n % 10) (by omega)]
      congr 1
      rw [hlen, pow_succ]
      calc (acc * 10 ^ (natToDigits (n / 10)).length + n / 10) * 10 + n % 10
          = acc * (10 ^ (natToDigits (n / 10)).length * 10) + (10 * (n / 10) + n % 10) := by
            ring
        _ = acc * (10 ^ (natToDigits (n / 10)).length * 10) + n := by
            rw [Nat.div_add_mod]

theorem charsToNat?_natToChars (n : Nat) : charsToNat? (natToChars n) = some n := by
  have hne : natToChars n ≠ [] := by
    rw [natToChars]
    simp [natToDigits_ne_nil n]
  rcases h : natToChars n with _ | ⟨c, cs⟩
  · exact absurd h hne
  · rw [charsToNat?, ← h, charsToNatGo_natToChars n 0]
    · simp
    · simp

theorem charsToInt?_intToChars (i : Int) : charsToInt? (intToChars i) = some i := by
  by_cases hneg : i < 0
  · rw [intToChars, if_pos hneg, charsToInt?, if_pos rfl, charsToNat?_natToChars]
    dsimp only
    congr 1
    omega
  · rw [intToChars, if_neg hneg]
    obtain ⟨d, ds, hds⟩ : ∃ d ds, natToDigits i.toNat = d :: ds := by
      rcases h : natToDigits i.toNat with _ | ⟨d, ds⟩
      · exact absurd h (natToDigits_ne_nil _)
      · exact ⟨d, ds, rfl⟩
    have hchars : natToChars i.toNat = digitChar d :: ds.map digitChar := by
      rw [natToChars, hds, List.map_cons]
    rw [hchars, charsToInt?, if_neg (digitChar_ne_dash d), ← hchars, charsToNat?_natToChars]
    dsimp only
    congr 1
    omega

/-- **C5** (modelled from the spec, §4.4).  Key-file round-trip law: for every
`StoredFile` and every supported key-file version, decoding the artifact
produced by encoding the `StoredFile` succeeds and yields a file id, filename
and original size (and obfuscation secret) identical to the source's. -/
theorem keyFile_roundtrip (v : Nat) (sf : StoredFile)
    (hv : v ∈ supportedKeyFileVersions) :
    decodeKeyFile (encodeKeyFile v sf) =
      .ok (v, ⟨sf.FileID, sf.OriginalFilename, sf.OriginalSize, sf.ObfuscationSeed⟩) := by
  rw [encodeKeyFile, decodeKeyFile]
  rw [if_neg (by simp), charsToNat?_natToChars]
  dsimp only
  rw [if_neg (by simpa using hv), charsToInt?_intToChars]
  dsimp only
  rw [stringMk_toList, stringMk_toList, stringMk_toList]

/-- Witness for C5 at version 1 and a concrete `StoredFile`. -/
theorem keyFile_roundtrip_witness :
    1 ∈ supportedKeyFileVersions ∧
    decodeKeyFile (encodeKeyFile 1
        ⟨"0b1c2d", "a1b2c3d4e5f6", "u1", "doc.pdf", 42, 48, [], "s3cret", "t0", "active"⟩) =
      .ok (1, ⟨"a1b2c3d4e5f6", "doc.pdf", 42, "s3cret"⟩) :=
  ⟨by decide,
    keyFile_roundtrip 1
      ⟨"0b1c2d", "a1b2c3d4e5f6", "u1", "doc.pdf", 42, 48, [], "s3cret", "t0", "active"⟩
      (by decide)⟩

/-! ## Download/Reconstruction Engine

Modelled from the spec: the reconstruction engine is not among the available
source files; only its data model (`DownloadSession`, `StoredChunk` in
src/unnamed/part_002) and its HTTP callers appear.  Following spec §4.5: every
fetched chunk's checksum is verified against the value recorded in its
`StoredChunk` immediately on receipt, and a mismatch fails the whole session
with `ChunkCorrupted` naming the offending chunk before any assembly happens;
otherwise the chunks are ordered by offset, checked for gaps and overlaps
(`ReconstructionInconsistent` on failure), de-obfuscated with the per-file
secret and concatenated into the reconstructed artifact.  The checksum
function itself is a parameter of the model. -/

structure FetchedChunk where
  chunk : StoredChunk
  data : List Nat
deriving Repr, DecidableEq

inductive DownloadError where
  | ChunkCorrupted (chunkID : Int)
  | ReconstructionInconsistent
deriving Repr, DecidableEq

/-- The final observable state of a download session: its status string (as in
`DownloadSession.Status`), its error, and the reconstructed artifact if one
was produced. -/
structure DownloadOutcome where
  status : String
  error : Option DownloadError
  artifact : Option (List Nat)
deriving Repr, DecidableEq

/-- Reverse the per-file obfuscation: XOR each byte with the secret, cycled. -/
def deobfuscate (seed : String) (bytes : List Nat) : List Nat :=
  bytes.mapIdx (fun i b => b ^^^ ((seed.toList.getD (i % seed.length) (Char.ofNat 0)).toNat % 256))

def insertByOffset (c : FetchedChunk) : List FetchedChunk → List FetchedChunk
  | [] => [c]
  | d :: ds =>
    if c.chunk.StartOffset ≤ d.chunk.StartOffset then c :: d :: ds
    else d :: insertByOffset c ds

/-- Order fetched chunks by ascending start offset. -/
def sortByOffset : List FetchedChunk → List FetchedChunk
  | [] => []
  | c :: cs => insertByOffset c (sortByOffset cs)

/-- Gap/overlap detection over the ordered chunk list. -/
def chunkOffsetsOK : Int → List FetchedChunk → Bool
  | _, [] => true
  | off, c :: rest =>
    decide (c.chunk.StartOffset = off) &&
      decide (c.chunk.EndOffset = c.chunk.StartOffset + c.chunk.Size) &&
      chunkOffsetsOK c.chunk.EndOffset rest

/-- Modelled from the spec: the Download/Reconstruction Engine of §4.5, whose
implementation is not among the available source files.  The reconstruction
run, from verified fetch to exposed artifact. -/
def runReconstruction (checksum : List Nat → String) (seed : String)
    (fetched : List FetchedChunk) : DownloadOutcome :=
  match fetched.find? (fun fc => checksum fc.data != fc.chunk.Checksum) with
  | some fc => ⟨"failed", some (.ChunkCorrupted fc.chunk.ChunkID), none⟩
  | none =>
    let ordered := sortByOffset fetched
    if chunkOffsetsOK 0 ordered then
      ⟨"complete", none, some (deobfuscate seed ((ordered.map FetchedChunk.data).flatten))⟩
    else ⟨"failed", some .ReconstructionInconsistent, none⟩

/-- **C6** (modelled from the spec, §4.5).  If any fetched chunk's checksum
differs from the checksum recorded in its `StoredChunk`, the download session
ends in status "failed" with `ChunkCorrupted` naming an offending chunk, and
no reconstructed artifact is produced. -/
theorem reconstruction_fails_on_corruption (checksum : List Nat → String)
    (seed : String) (fetched : List FetchedChunk)
    (h : ∃ fc ∈ fetched, checksum fc.data ≠ fc.chunk.Checksum) :
    (runReconstruction checksum seed fetched).status = "failed" ∧
    (∃ fc ∈ fetched, checksum fc.data ≠ fc.chunk.Checksum ∧
      (runReconstruction checksum seed fetched).error =
        some (.ChunkCorrupted fc.chunk.ChunkID)) ∧
    (runReconstruction checksum seed fetched).artifact = none := by
  obtain ⟨fc, hmem, hne⟩ := h
  have hsome : ∃ fc', fetched.find? (fun fc => checksum fc.data != fc.chunk.Checksum) =
      some fc' := by
    rcases hfind : fetched.find? (fun fc => checksum fc.data != fc.chunk.Checksum) with _ | fc'
    · rw [List.find?_eq_none] at hfind
      exact absurd (by simpa using hfind fc hmem) (by simpa using hne)
    · exact ⟨fc', hfind⟩
  obtain ⟨fc', hfc'⟩ := hsome
  have hmem' : fc' ∈ fetched := List.mem_of_find?_eq_some hfc'
  have hne' : checksum fc'.data ≠ fc'.chunk.Checksum := by
    have := List.find?_some hfc'
    simpa using this
  refine ⟨?_, ⟨fc', hmem', hne', ?_⟩, ?_⟩ <;> simp [runReconstruction, hfc']

/-- Witness for C6: a one-chunk fetch whose recorded checksum disagrees with
the checksum of the fetched bytes, under a length-based checksum function. -/
theorem reconstruction_fails_on_corruption_witness :
    (∃ fc ∈ [FetchedChunk.mk ⟨0, "acc", "d", "df", "f", 1, "xx", 0, 1⟩ [7]],
      String.mk (List.replicate fc.data.length 'x') ≠ fc.chunk.Checksum) ∧
    ((runReconstruction (fun bytes => String.mk (List.replicate bytes.length 'x')) "s"
        [FetchedChunk.mk ⟨0, "acc", "d", "df", "f", 1, "xx", 0, 1⟩ [7]]).status = "failed" ∧
      (∃ fc ∈ [FetchedChunk.mk ⟨0, "acc", "d", "df", "f", 1, "xx", 0, 1⟩ [7]],
        String.mk (List.replicate fc.data.length 'x') ≠ fc.chunk.Checksum ∧
        (runReconstruction (fun bytes => String.mk (List.replicate bytes.length 'x')) "s"
          [FetchedChunk.mk ⟨0, "acc", "d", "df", "f", 1, "xx", 0, 1⟩ [7]]).error =
            some (.ChunkCorrupted fc.chunk.ChunkID)) ∧
      (runReconstruction (fun bytes => String.mk (List.replicate bytes.length 'x')) "s"
        [FetchedChunk.mk ⟨0, "acc", "d", "df", "f", 1, "xx", 0, 1⟩ [7]]).artifact = none) :=
  ⟨by decide,
    reconstruction_fails_on_corruption
      (fun bytes => String.mk (List.replicate bytes.length 'x')) "s"
      [FetchedChunk.mk ⟨0, "acc", "d", "df", "f", 1, "xx", 0, 1⟩ [7]] (by decide)⟩
